import Mathlib

/-!
Verification development for the GPU executable / autotuning-selector core
(`tensorflow/core/kernels/gpu_utils.cc` and
`tensorflow/compiler/xla/service/gpu/gpu_executable.h`).

The C++ sources are shallowly embedded: protobuf result records become
structures, durations become `Nat` tick counts (only `<` comparisons on
`absl::Duration` occur in the source), raw `void*` graph pointers become
`Nat` identifiers, and the `std::list` iterators stored in
`gpu_key_to_exec_graphs_map_` are modelled by the value they point to
(`Option Nat`, `none` standing for a past-the-end iterator), since the
source only ever stores `begin()` right after a `push_front` and only
ever dereferences a stored iterator.
-/

set_option autoImplicit false

namespace GpuUtils

/-- One autotuning candidate from `AutotuneResult` (gpu_utils.cc):
failure flag, measured run time (ticks), scratch requirement, and the
`conv()` payload (algorithm id and tensor-ops flag). -/
structure AutotuneResult where
  hasFailure : Bool
  runTime : Nat
  scratchBytes : Nat
  convAlgorithm : Nat
  convTensorOpsEnabled : Bool
deriving DecidableEq, Repr

/-- An algorithm id plus tensor-ops flag, as packed into
`se::dnn::AlgorithmConfig` by `set_algorithm`. -/
structure AlgorithmDesc where
  algorithm : Nat
  tensorOpsEnabled : Bool
deriving DecidableEq, Repr

/-- `se::dnn::AlgorithmConfig`: primary slot and optional no-scratch slot. -/
structure AlgorithmConfig where
  algorithm : Option AlgorithmDesc
  algorithmNoScratch : Option AlgorithmDesc
deriving DecidableEq, Repr

/-- Status of the selector calls: `Status::OK()` or `errors::NotFound`. -/
inductive Status where
  | ok
  | notFound (msg : String)
deriving DecidableEq, Repr

/-- `std::min_element` over a non-empty vector with the strict comparator
`compare_run_times`: the running minimum is replaced only on strictly
smaller run time, so the first minimal element wins. -/
def minElement (r₀ : AutotuneResult) (rs : List AutotuneResult) : AutotuneResult :=
  rs.foldl (fun m x => if x.runTime < m.runTime then x else m) r₀

/-- The `conv()` payload of a result, as read by `set_algorithm`. -/
def descOf (r : AutotuneResult) : AlgorithmDesc :=
  ⟨r.convAlgorithm, r.convTensorOpsEnabled⟩

/-- The second half of `BestCudnnConvAlgorithm`: `set_algorithm_no_scratch`
is executed only when `selected_result_no_scratch` is a real element of
`filtered_results_no_scratch` (`begin() != end()`); with an empty
no-scratch subset the slot keeps its prior value. -/
def setNoScratch (requireDeterminism : Bool) (noScratch : List AutotuneResult)
    (algo : AlgorithmConfig) : AlgorithmConfig :=
  match noScratch with
  | [] => algo
  | n₀ :: ntail =>
    { algo with
      algorithmNoScratch :=
        some (descOf (if requireDeterminism then n₀ else minElement n₀ ntail)) }

/-- `BestCudnnConvAlgorithm` (gpu_utils.cc lines 290-326).  The global
`se::cuda::RequireCuDNNDeterminism()` is passed as the explicit argument
`requireDeterminism`; the caller's `AlgorithmConfig` is threaded through
so that what the source leaves unassigned stays at its prior value.
Deterministic mode keeps `begin()` of each filtered vector; otherwise
`absl::c_min_element` with the strict run-time comparator is taken. -/
def BestCudnnConvAlgorithm (results : List AutotuneResult)
    (requireDeterminism : Bool) (algo : AlgorithmConfig) :
    Status × AlgorithmConfig :=
  match results.filter (fun r => !r.hasFailure) with
  | [] => (Status.notFound "No algorithm worked!", algo)
  | f₀ :: ftail =>
    (Status.ok,
      setNoScratch requireDeterminism
        ((f₀ :: ftail).filter (fun r => r.scratchBytes == 0))
        { algo with
          algorithm :=
            some (descOf (if requireDeterminism then f₀
              else minElement f₀ ftail)) })

/-- One candidate from `AutotuneExecutionPlanResult`: failure flag,
measured run time and scratch requirement (only these fields are read by
`BestCudnnConvExecutionPlan`). -/
structure AutotuneExecutionPlanResult where
  hasFailure : Bool
  runTime : Nat
  scratchBytes : Nat
deriving DecidableEq, Repr

/-- `results[j].run_time()` for an index previously stored in `*idx`
(always in range whenever the source dereferences it). -/
def rtAt (results : List AutotuneExecutionPlanResult) (j : Int) : Nat :=
  ((results.get? j.toNat).map (·.runTime)).getD 0

/-- One iteration of the selection loop of `BestCudnnConvExecutionPlan`
(gpu_utils.cc lines 333-347) at index `i`, updating `(idx, idx_no_scratch)`. -/
def planStep (results : List AutotuneExecutionPlanResult)
    (p : Int × Int) (i : Nat) : Int × Int :=
  match results.get? i with
  | none => p
  | some r =>
    if r.hasFailure then p
    else
      let idx := if p.1 == -1 ∨ r.runTime < rtAt results p.1 then (i : Int) else p.1
      let idxNoScratch :=
        if r.scratchBytes == 0 ∧ (p.2 == -1 ∨ r.runTime < rtAt results p.2)
        then (i : Int) else p.2
      (idx, idxNoScratch)

/-- `BestCudnnConvExecutionPlan` (gpu_utils.cc lines 328-354).  The output
parameters `*idx` and `*idx_no_scratch` are modelled by threading their
prior values in and returning the written values; the source overwrites
both with `-1` before the loop. -/
def BestCudnnConvExecutionPlan (results : List AutotuneExecutionPlanResult)
    (idxPrior idxNoScratchPrior : Int) : Status × Int × Int :=
  let _ := idxPrior
  let _ := idxNoScratchPrior
  let p := (List.range results.length).foldl (planStep results) (-1, -1)
  if p.1 == -1 ∧ p.2 == -1 then
    (Status.notFound "No execution plan worked!", p.1, p.2)
  else
    (Status.ok, p.1, p.2)

/-- The non-failed candidates (`filtered_results`), in input order. -/
def survivors (results : List AutotuneResult) : List AutotuneResult :=
  results.filter (fun r => !r.hasFailure)

/-- The non-failed candidates with zero scratch bytes
(`filtered_results_no_scratch`), in input order. -/
def survivorsNoScratch (results : List AutotuneResult) : List AutotuneResult :=
  (survivors results).filter (fun r => r.scratchBytes == 0)

/-- `r` is the stable minimum of `l` by run time: it occurs in `l`,
every earlier element is strictly slower, and every later element is no
faster (so ties are broken by input order). -/
def IsStableMin (l : List AutotuneResult) (r : AutotuneResult) : Prop :=
  ∃ pre post, l = pre ++ r :: post ∧
    (∀ x ∈ pre, r.runTime < x.runTime) ∧
    (∀ x ∈ post, r.runTime ≤ x.runTime)

/-- Run time of the plan candidate at a `Nat` index. -/
def rtN (results : List AutotuneExecutionPlanResult) (j : Nat) : Nat :=
  ((results.get? j).map (·.runTime)).getD 0

/-- Index `j` holds a non-failed plan candidate. -/
def SurvivesAt (results : List AutotuneExecutionPlanResult) (j : Nat) : Prop :=
  ∃ r, results.get? j = some r ∧ r.hasFailure = false

/-- Index `j` holds a non-failed, zero-scratch plan candidate. -/
def NoScratchAt (results : List AutotuneExecutionPlanResult) (j : Nat) : Prop :=
  ∃ r, results.get? j = some r ∧ r.hasFailure = false ∧ r.scratchBytes = 0

/-- The integer `v` is the index of the stable (first) run-time minimum
among the indices satisfying `P`. -/
def IsStableMinIdx (results : List AutotuneExecutionPlanResult)
    (P : Nat → Prop) (v : Int) : Prop :=
  ∃ i : Nat, v = (i : Int) ∧ P i ∧
    (∀ j, P j → rtN results i ≤ rtN results j) ∧
    (∀ j, j < i → P j → rtN results i < rtN results j)

/-- Loop invariant of the `BestCudnnConvExecutionPlan` selection loop
after scanning the first `n` indices: the running index is `-1` with no
qualifying index seen, or it is the stable minimum of the qualifying
indices seen so far. -/
def PlanInv (results : List AutotuneExecutionPlanResult)
    (P : Nat → Prop) (n : Nat) (v : Int) : Prop :=
  (v = -1 ∧ ∀ j, j < n → ¬ P j) ∨
  (∃ i : Nat, v = (i : Int) ∧ i < n ∧ P i ∧
    (∀ j, j < n → P j → rtN results i ≤ rtN results j) ∧
    (∀ j, j < i → P j → rtN results i < rtN results j))

instance (results : List AutotuneExecutionPlanResult) (j : Nat) :
    Decidable (SurvivesAt results j) := by
  unfold SurvivesAt
  infer_instance

instance (results : List AutotuneExecutionPlanResult) (j : Nat) :
    Decidable (NoScratchAt results j) := by
  unfold NoScratchAt
  infer_instance

end GpuUtils

namespace GpuExecutable

/-- Association-list lookup for `std::unordered_map` keyed by `Nat`. -/
def mapFind (m : List (Nat × Option Nat)) (k : Nat) : Option (Option Nat) :=
  (m.find? (fun p => p.1 == k)).map (·.2)

/-- `map[key] = v`: overwrite the binding for `key`. -/
def mapInsert (m : List (Nat × Option Nat)) (k : Nat) (v : Option Nat) :
    List (Nat × Option Nat) :=
  (k, v) :: m.filter (fun p => p.1 ≠ k)

/-- `map.erase(key)`. -/
def mapErase (m : List (Nat × Option Nat)) (k : Nat) : List (Nat × Option Nat) :=
  m.filter (fun p => p.1 ≠ k)

/-- `GpuExecutable::MutexedGraphExecCache` (gpu_executable.h lines 190-248).
`gpu_exec_graphs_` is the MRU-first `std::list` of raw graph pointers
(modelled as `Nat` ids); `gpu_key_to_exec_graphs_map_` stores, per key,
the value pointed to by the stored `std::list` iterator (`none` for a
past-the-end iterator).  `destroyed` records the graphs released via
`GpuDriver::DestroyExecutableGraph`, newest first.  The per-cache mutex
serialises operations, so the embedding is sequential state passing. -/
structure MutexedGraphExecCache where
  cacheSize : Int
  gpuExecGraphs : List Nat
  gpuKeyToExecGraphsMap : List (Nat × Option Nat)
  destroyed : List Nat
deriving DecidableEq, Repr

namespace MutexedGraphExecCache

/-- The comparison `gpu_exec_graphs_.size() > cache_size_` pits a
`size_t` against an `int64`: the usual arithmetic conversions turn the
signed `cache_size_` into its unsigned (two's-complement)
reinterpretation, so a negative capacity reads as `cacheSize + 2 ^ 64`
and never triggers eviction.  For an in-range `int64` this is exactly
`cacheSize mod 2 ^ 64`. -/
def evictionThreshold (cacheSize : Int) : Int :=
  if cacheSize < 0 then cacheSize + 2 ^ 64 else cacheSize

/-- `update_cache` (gpu_executable.h lines 200-213): `push_front` the new
graph; if the list size now exceeds `cache_size_` read as unsigned
(`evictionThreshold`), destroy and `pop_back` the least-recently-used
graph; finally `map[key] = begin()`. -/
def update_cache (c : MutexedGraphExecCache) (key : Nat) (g : Nat) :
    MutexedGraphExecCache :=
  let l := g :: c.gpuExecGraphs
  if (l.length : Int) > evictionThreshold c.cacheSize then
    let l' := l.dropLast
    { cacheSize := c.cacheSize
      gpuExecGraphs := l'
      gpuKeyToExecGraphsMap := mapInsert c.gpuKeyToExecGraphsMap key l'.head?
      destroyed := l.getLast (List.cons_ne_nil g c.gpuExecGraphs) :: c.destroyed }
  else
    { c with
      gpuExecGraphs := l
      gpuKeyToExecGraphsMap := mapInsert c.gpuKeyToExecGraphsMap key (some g) }

/-- `get_exec_graph` (gpu_executable.h lines 215-232): on a key in the
map, `std::find` the dereferenced stored iterator in the list; if absent,
erase the stale map entry and return null; otherwise `remove` the graph
from the list, `push_front` it (promotion to MRU), point the map at the
new `begin()` and return it.  A dangling empty-list iterator (`none`,
reachable only with a non-positive capacity) dereferences to no list
element, so its `std::find` misses and takes the stale-cleanup path. -/
def get_exec_graph (c : MutexedGraphExecCache) (key : Nat) :
    MutexedGraphExecCache × Option Nat :=
  match mapFind c.gpuKeyToExecGraphsMap key with
  | none => (c, none)
  | some itv =>
    match itv with
    | none =>
      ({ c with gpuKeyToExecGraphsMap := mapErase c.gpuKeyToExecGraphsMap key },
       none)
    | some gval =>
      if gval ∈ c.gpuExecGraphs then
        let l' := gval :: c.gpuExecGraphs.filter (fun x => x ≠ gval)
        ({ c with
           gpuExecGraphs := l'
           gpuKeyToExecGraphsMap :=
             mapInsert c.gpuKeyToExecGraphsMap key (some gval) },
         some gval)
      else
        ({ c with gpuKeyToExecGraphsMap := mapErase c.gpuKeyToExecGraphsMap key },
         none)

/-- A key is consistent when its index entry refers to a graph currently
in the ordered list (§4.2 invariant of the spec). -/
def Consistent (c : MutexedGraphExecCache) (k : Nat) : Prop :=
  ∀ v, mapFind c.gpuKeyToExecGraphsMap k = some v →
    ∃ g, v = some g ∧ g ∈ c.gpuExecGraphs

instance (c : MutexedGraphExecCache) (k : Nat) : Decidable (Consistent c k) := by
  unfold Consistent
  infer_instance

end MutexedGraphExecCache

end GpuExecutable

namespace Redzone

end Redzone

namespace XlaGpu

/-- Nvidia compute capability (major, minor), as compared by
`CheckCompatibilityWithServiceExecutableRunOptions`. -/
structure GpuVersion where
  major : Nat
  minor : Nat
deriving DecidableEq, Repr

/-- Error kinds surfaced by the run loop (§7 of the spec). -/
inductive ExecError where
  | capabilityMismatch
  | thunkExecutionFailure (i : Nat)
deriving DecidableEq, Repr

/-- Modelled from the spec: the bodies of
`GpuExecutable::ExecuteAsyncOnStream` and
`CheckCompatibilityWithServiceExecutableRunOptions` are not in the
sources (gpu_executable.h only declares them); per the header comment
(lines 84-85) and spec §4.1, execution "will fail if the compute
capability of the stream doesn't match the compute capability passed to
this object's constructor", before any thunk runs.  A thunk is a buffer
transformer that may fail; the run returns the error (if any), the
buffer table after the call, and the indices of the thunks executed. -/
def ExecuteThunks (thunks : List (List Nat → Option (List Nat))) (i : Nat)
    (bufs : List Nat) (done : List Nat) :
    Option ExecError × List Nat × List Nat :=
  match thunks with
  | [] => (none, bufs, done.reverse)
  | t :: ts' =>
    match t bufs with
    | none => (some (ExecError.thunkExecutionFailure i), bufs, done.reverse)
    | some bufs' => ExecuteThunks ts' (i + 1) bufs' (i :: done)

/-- Modelled from the spec: the capability gate of
`ExecuteAsyncOnStream` — mismatch fails immediately with no thunk run
and no buffer touched; on match the thunks run in schedule order. -/
def ExecuteAsyncOnStream (compiledVersion deviceVersion : GpuVersion)
    (thunks : List (List Nat → Option (List Nat))) (buffers : List Nat) :
    Option ExecError × List Nat × List Nat :=
  if compiledVersion ≠ deviceVersion then
    (some ExecError.capabilityMismatch, buffers, [])
  else
    ExecuteThunks thunks 0 buffers []

end XlaGpu


/-!
Theorems.  Helper lemmas come first; the claim-level theorems follow.
-/

namespace GpuUtils

/-- A stable minimum is a lower bound for the whole list. -/
theorem stableMin_le {m : AutotuneResult} {pre post : List AutotuneResult}
    (hpre : ∀ x ∈ pre, m.runTime < x.runTime)
    (hpost : ∀ x ∈ post, m.runTime ≤ x.runTime) :
    ∀ x ∈ pre ++ m :: post, m.runTime ≤ x.runTime := by
  intro x hx
  rcases List.mem_append.mp hx with h | h
  · exact le_of_lt (hpre x h)
  · rcases List.mem_cons.mp h with h | h
    · rw [h]
    · exact hpost x h

/-- `std::min_element` with the strict run-time comparator returns the
first minimal element: everything earlier is strictly slower, everything
later no faster. -/
theorem minElement_stable (rs : List AutotuneResult) : ∀ r₀ : AutotuneResult,
    ∃ pre post, r₀ :: rs = pre ++ minElement r₀ rs :: post ∧
      (∀ x ∈ pre, (minElement r₀ rs).runTime < x.runTime) ∧
      (∀ x ∈ post, (minElement r₀ rs).runTime ≤ x.runTime) := by
  induction rs with
  | nil =>
    intro r₀
    exact ⟨[], [], rfl, by simp, by simp⟩
  | cons x rs ih =>
    intro r₀
    by_cases hx : x.runTime < r₀.runTime
    · have hme : minElement r₀ (x :: rs) = minElement x rs := by
        simp [minElement, hx]
      obtain ⟨pre, post, hdec, hpre, hpost⟩ := ih x
      have hmle : (minElement x rs).runTime ≤ x.runTime := by
        have hx_mem : x ∈ pre ++ minElement x rs :: post := by
          rw [← hdec]; exact List.mem_cons_self x rs
        exact stableMin_le hpre hpost x hx_mem
      refine ⟨r₀ :: pre, post, ?_, ?_, ?_⟩
      · rw [hme, List.cons_append, ← hdec]
      · intro y hy
        rcases List.mem_cons.mp hy with h | h
        · subst h; rw [hme]; exact lt_of_le_of_lt hmle hx
        · rw [hme]; exact hpre y h
      · intro y hy; rw [hme]; exact hpost y hy
    · have hme : minElement r₀ (x :: rs) = minElement r₀ rs := by
        simp [minElement, hx]
      obtain ⟨pre, post, hdec, hpre, hpost⟩ := ih r₀
      cases pre with
      | nil =>
        simp only [List.nil_append] at hdec
        have hm : minElement r₀ rs = r₀ := (List.cons.injEq _ _ _ _ ▸ hdec).1.symm
        have hp : rs = post := (List.cons.injEq _ _ _ _ ▸ hdec).2
        refine ⟨[], x :: rs, ?_, by simp, ?_⟩
        · rw [hme, hm, List.nil_append]
        · intro y hy
          rcases List.mem_cons.mp hy with h | h
          · subst h; rw [hme, hm]; exact le_of_not_lt hx
          · rw [hme, hm]
            have := hpost y (hp ▸ h)
            rwa [hm] at this
      | cons p pre₂ =>
        have hp : r₀ = p := (List.cons.injEq _ _ _ _ ▸ hdec).1
        have hrs : rs = pre₂ ++ minElement r₀ rs :: post :=
          (List.cons.injEq _ _ _ _ ▸ hdec).2
        have hr₀ : (minElement r₀ rs).runTime < r₀.runTime := by
          have := hpre p (List.mem_cons_self p pre₂)
          rwa [← hp] at this
        refine ⟨r₀ :: x :: pre₂, post, ?_, ?_, ?_⟩
        · rw [hme]
          simp only [List.cons_append]
          rw [← hrs]
        · intro y hy
          rcases List.mem_cons.mp hy with h | h
          · subst h; rw [hme]; exact hr₀
          · rcases List.mem_cons.mp h with h' | h'
            · subst h'; rw [hme]
              exact lt_of_lt_of_le hr₀ (le_of_not_lt hx)
            · rw [hme]; exact hpre y (List.mem_cons_of_mem p h')
        · intro y hy; rw [hme]; exact hpost y hy

/-- Packaging of `minElement_stable` through `IsStableMin`. -/
theorem minElement_isStableMin (f₀ : AutotuneResult) (ftail : List AutotuneResult) :
    IsStableMin (f₀ :: ftail) (minElement f₀ ftail) := by
  obtain ⟨pre, post, hdec, hpre, hpost⟩ := minElement_stable ftail f₀
  exact ⟨pre, post, hdec, hpre, hpost⟩

end GpuUtils

namespace GpuUtils

theorem rtAt_natCast (results : List AutotuneExecutionPlanResult) (i : Nat) :
    rtAt results (i : Int) = rtN results i := by
  simp [rtAt, rtN]

theorem rtN_eq {results : List AutotuneExecutionPlanResult} {n : Nat}
    {r : AutotuneExecutionPlanResult} (h : results.get? n = some r) :
    rtN results n = r.runTime := by
  unfold rtN
  rw [h]
  rfl

theorem planStep_none {results : List AutotuneExecutionPlanResult}
    {p : Int × Int} {n : Nat} (h : results.get? n = none) :
    planStep results p n = p := by
  unfold planStep
  rw [h]

theorem planStep_fail {results : List AutotuneExecutionPlanResult}
    {p : Int × Int} {n : Nat} {r : AutotuneExecutionPlanResult}
    (h : results.get? n = some r) (hf : r.hasFailure = true) :
    planStep results p n = p := by
  unfold planStep
  rw [h]
  simp [hf]

theorem planStep_ok {results : List AutotuneExecutionPlanResult}
    {p : Int × Int} {n : Nat} {r : AutotuneExecutionPlanResult}
    (h : results.get? n = some r) (hf : r.hasFailure = false) :
    planStep results p n =
      (if p.1 == -1 ∨ r.runTime < rtAt results p.1 then (n : Int) else p.1,
       if r.scratchBytes == 0 ∧ (p.2 == -1 ∨ r.runTime < rtAt results p.2)
       then (n : Int) else p.2) := by
  unfold planStep
  rw [h]
  simp [hf]

/-- Extending the loop invariant past an index that does not qualify. -/
theorem planInv_extend {results : List AutotuneExecutionPlanResult}
    {P : Nat → Prop} {n : Nat} {v : Int}
    (h : PlanInv results P n v) (hn : ¬ P n) :
    PlanInv results P (n + 1) v := by
  rcases h with ⟨hv, hall⟩ | ⟨i, hv, hin, hPi, hmin, hstrict⟩
  · refine Or.inl ⟨hv, fun j hj hPj => ?_⟩
    by_cases hjn : j < n
    · exact hall j hjn hPj
    · have : j = n := by omega
      subst this; exact hn hPj
  · refine Or.inr ⟨i, hv, Nat.lt_succ_of_lt hin, hPi, fun j hj hPj => ?_, hstrict⟩
    by_cases hjn : j < n
    · exact hmin j hjn hPj
    · have : j = n := by omega
      subst this; exact absurd hPj hn

/-- Extending the loop invariant when index `n` is picked because it is
strictly faster than every earlier qualifying index. -/
theorem planInv_pick {results : List AutotuneExecutionPlanResult}
    {P : Nat → Prop} {n : Nat} (hPn : P n)
    (h : ∀ j, j < n → P j → rtN results n < rtN results j) :
    PlanInv results P (n + 1) (n : Int) := by
  refine Or.inr ⟨n, rfl, Nat.lt_succ_self n, hPn, fun j hj hPj => ?_, h⟩
  by_cases hjn : j < n
  · exact le_of_lt (h j hjn hPj)
  · have : j = n := by omega
    subst this; exact le_refl _

/-- Extending the loop invariant when the running index is kept because
index `n` is no faster. -/
theorem planInv_keep {results : List AutotuneExecutionPlanResult}
    {P : Nat → Prop} {n : Nat} {v : Int}
    (hinv : PlanInv results P n v) (hPn : P n) (hne : v ≠ -1)
    (hge : ∀ i : Nat, v = (i : Int) → rtN results i ≤ rtN results n) :
    PlanInv results P (n + 1) v := by
  rcases hinv with ⟨hv, _⟩ | ⟨i, hv, hin, hPi, hmin, hstrict⟩
  · exact absurd hv hne
  · refine Or.inr ⟨i, hv, Nat.lt_succ_of_lt hin, hPi, fun j hj hPj => ?_, hstrict⟩
    by_cases hjn : j < n
    · exact hmin j hjn hPj
    · have : j = n := by omega
      subst this; exact hge i hv

/-- One selection-loop component (`*idx` or `*idx_no_scratch`) preserves
the invariant across the update performed for a qualifying index `n`. -/
theorem planComp_inv {results : List AutotuneExecutionPlanResult}
    {P : Nat → Prop} {n : Nat} {v : Int} {r : AutotuneExecutionPlanResult}
    (hres : results.get? n = some r) (hP : P n)
    (hinv : PlanInv results P n v) :
    PlanInv results P (n + 1)
      (if v == -1 ∨ r.runTime < rtAt results v then (n : Int) else v) := by
  have hrtn : rtN results n = r.runTime := rtN_eq hres
  by_cases hc : v == -1 ∨ r.runTime < rtAt results v
  · rw [if_pos hc]
    rcases hinv with ⟨_, hall⟩ | ⟨i, hvi, _, _, hmin, _⟩
    · exact planInv_pick hP (fun j hj hPj => absurd hPj (hall j hj))
    · rcases hc with hv1 | hlt
      · exfalso
        have hv : v = -1 := by simpa using hv1
        rw [hv] at hvi
        omega
      · have hrti : rtAt results v = rtN results i := by
          rw [hvi]; exact rtAt_natCast results i
        refine planInv_pick hP (fun j hj hPj => ?_)
        rw [hrtn]
        calc r.runTime < rtN results i := by rw [← hrti]; exact hlt
          _ ≤ rtN results j := hmin j (by omega) hPj
  · rw [if_neg hc]
    push_neg at hc
    obtain ⟨hne, hge⟩ := hc
    have hne' : v ≠ -1 := by simpa using hne
    refine planInv_keep hinv hP hne' (fun i hvi => ?_)
    rw [hrtn]
    have : rtAt results v = rtN results i := by
      rw [hvi]; exact rtAt_natCast results i
    rw [← this]
    exact hge

end GpuUtils

namespace GpuUtils

/-- One full iteration of the selection loop preserves both component
invariants. -/
theorem planStep_inv (results : List AutotuneExecutionPlanResult)
    (n : Nat) (p : Int × Int)
    (h1 : PlanInv results (SurvivesAt results) n p.1)
    (h2 : PlanInv results (NoScratchAt results) n p.2) :
    PlanInv results (SurvivesAt results) (n + 1) (planStep results p n).1 ∧
    PlanInv results (NoScratchAt results) (n + 1) (planStep results p n).2 := by
  cases hres : results.get? n with
  | none =>
    rw [planStep_none hres]
    have hs : ¬ SurvivesAt results n := by
      rintro ⟨r, hr, _⟩; rw [hres] at hr; cases hr
    have hn : ¬ NoScratchAt results n := by
      rintro ⟨r, hr, _⟩; rw [hres] at hr; cases hr
    exact ⟨planInv_extend h1 hs, planInv_extend h2 hn⟩
  | some r =>
    cases hfail : r.hasFailure with
    | true =>
      rw [planStep_fail hres hfail]
      have hs : ¬ SurvivesAt results n := by
        rintro ⟨r', hr', hf'⟩
        rw [hres] at hr'
        injection hr' with hrr
        subst hrr
        rw [hfail] at hf'
        cases hf'
      have hn : ¬ NoScratchAt results n := by
        rintro ⟨r', hr', hf', _⟩
        rw [hres] at hr'
        injection hr' with hrr
        subst hrr
        rw [hfail] at hf'
        cases hf'
      exact ⟨planInv_extend h1 hs, planInv_extend h2 hn⟩
    | false =>
      rw [planStep_ok hres hfail]
      constructor
      · exact planComp_inv hres ⟨r, hres, hfail⟩ h1
      · by_cases hs0 : r.scratchBytes = 0
        · have hcond : ∀ a b : Int,
              (if r.scratchBytes == 0 ∧ (p.2 == -1 ∨ r.runTime < rtAt results p.2)
               then a else b) =
              (if p.2 == -1 ∨ r.runTime < rtAt results p.2 then a else b) := by
            intro a b
            simp [hs0]
          rw [hcond]
          exact planComp_inv hres ⟨r, hres, hfail, hs0⟩ h2
        · have hcond :
              (if r.scratchBytes == 0 ∧ (p.2 == -1 ∨ r.runTime < rtAt results p.2)
               then ((n : Int)) else p.2) = p.2 := by
            simp [hs0]
          rw [hcond]
          refine planInv_extend h2 ?_
          rintro ⟨r', hr', _, hsc'⟩
          rw [hres] at hr'
          injection hr' with hrr
          subst hrr
          exact hs0 hsc'

/-- The selection loop of `BestCudnnConvExecutionPlan` establishes the
invariant for every prefix length. -/
theorem planFold_inv (results : List AutotuneExecutionPlanResult) (n : Nat) :
    PlanInv results (SurvivesAt results) n
        ((List.range n).foldl (planStep results) (-1, -1)).1 ∧
    PlanInv results (NoScratchAt results) n
        ((List.range n).foldl (planStep results) (-1, -1)).2 := by
  induction n with
  | zero =>
    constructor <;> exact Or.inl ⟨rfl, fun j hj _ => absurd hj (Nat.not_lt_zero j)⟩
  | succ n ih =>
    rw [List.range_succ, List.foldl_append, List.foldl_cons, List.foldl_nil]
    exact planStep_inv results n _ ih.1 ih.2

/-- Qualifying indices lie within the list. -/
theorem survivesAt_lt_length {results : List AutotuneExecutionPlanResult}
    {j : Nat} (h : SurvivesAt results j) : j < results.length := by
  obtain ⟨r, hr, _⟩ := h
  by_contra hge
  rw [List.get?_eq_none.mpr (le_of_not_lt hge)] at hr
  cases hr

theorem noScratchAt_lt_length {results : List AutotuneExecutionPlanResult}
    {j : Nat} (h : NoScratchAt results j) : j < results.length := by
  obtain ⟨r, hr, _⟩ := h
  by_contra hge
  rw [List.get?_eq_none.mpr (le_of_not_lt hge)] at hr
  cases hr

/-- End-of-loop characterisation of the two written indices. -/
theorem planResult_spec (results : List AutotuneExecutionPlanResult) :
    (((List.range results.length).foldl (planStep results) (-1, -1)).1 = -1 ∧
       ∀ j, ¬ SurvivesAt results j) ∨
    IsStableMinIdx results (SurvivesAt results)
      ((List.range results.length).foldl (planStep results) (-1, -1)).1 := by
  rcases (planFold_inv results results.length).1 with ⟨hv, hall⟩ | ⟨i, hv, _, hPi, hmin, hstrict⟩
  · exact Or.inl ⟨hv, fun j hPj => hall j (survivesAt_lt_length hPj) hPj⟩
  · exact Or.inr ⟨i, hv, hPi,
      fun j hPj => hmin j (survivesAt_lt_length hPj) hPj, hstrict⟩

/-- End-of-loop characterisation of the no-scratch index. -/
theorem planResultNoScratch_spec (results : List AutotuneExecutionPlanResult) :
    (((List.range results.length).foldl (planStep results) (-1, -1)).2 = -1 ∧
       ∀ j, ¬ NoScratchAt results j) ∨
    IsStableMinIdx results (NoScratchAt results)
      ((List.range results.length).foldl (planStep results) (-1, -1)).2 := by
  rcases (planFold_inv results results.length).2 with ⟨hv, hall⟩ | ⟨i, hv, _, hPi, hmin, hstrict⟩
  · exact Or.inl ⟨hv, fun j hPj => hall j (noScratchAt_lt_length hPj) hPj⟩
  · exact Or.inr ⟨i, hv, hPi,
      fun j hPj => hmin j (noScratchAt_lt_length hPj) hPj, hstrict⟩

end GpuUtils

namespace GpuUtils

theorem noScratchAt_survivesAt {results : List AutotuneExecutionPlanResult}
    {j : Nat} (h : NoScratchAt results j) : SurvivesAt results j := by
  obtain ⟨r, hr, hf, _⟩ := h
  exact ⟨r, hr, hf⟩

/-- Both written indices are independent of the prior values of the
output parameters and equal to the loop result. -/
theorem plan_snd (results : List AutotuneExecutionPlanResult) (pa pb : Int) :
    (BestCudnnConvExecutionPlan results pa pb).2 =
      (List.range results.length).foldl (planStep results) (-1, -1) := by
  unfold BestCudnnConvExecutionPlan
  dsimp only
  split <;> rfl

theorem allFailed_iff (results : List AutotuneExecutionPlanResult) :
    (∀ j, ¬ SurvivesAt results j) ↔ ∀ r ∈ results, r.hasFailure = true := by
  constructor
  · intro h r hr
    obtain ⟨j, hj⟩ := List.mem_iff_get?.mp hr
    cases hb : r.hasFailure with
    | true => rfl
    | false => exact absurd ⟨r, hj, hb⟩ (h j)
  · intro h j hS
    obtain ⟨r, hj, hf⟩ := hS
    have hr : r ∈ results := List.get?_mem hj
    rw [h r hr] at hf
    cases hf

theorem planIdx_neg_one_iff (results : List AutotuneExecutionPlanResult) :
    ((List.range results.length).foldl (planStep results) (-1, -1)).1 = -1 ↔
      ∀ j, ¬ SurvivesAt results j := by
  rcases planResult_spec results with ⟨hv, hall⟩ | ⟨i, hv, hPi, _, _⟩
  · exact ⟨fun _ => hall, fun _ => hv⟩
  · constructor
    · intro h
      rw [h] at hv
      exact absurd hv (by omega)
    · intro hall
      exact absurd hPi (hall i)

theorem planIdxNoScratch_neg_one_iff (results : List AutotuneExecutionPlanResult) :
    ((List.range results.length).foldl (planStep results) (-1, -1)).2 = -1 ↔
      ∀ j, ¬ NoScratchAt results j := by
  rcases planResultNoScratch_spec results with ⟨hv, hall⟩ | ⟨i, hv, hPi, _, _⟩
  · exact ⟨fun _ => hall, fun _ => hv⟩
  · constructor
    · intro h
      rw [h] at hv
      exact absurd hv (by omega)
    · intro hall
      exact absurd hPi (hall i)

/-- The status of `BestCudnnConvExecutionPlan` is the not-found error
exactly when every input candidate carries a failure. -/
theorem plan_status_notFound_iff (results : List AutotuneExecutionPlanResult)
    (pa pb : Int) :
    ((BestCudnnConvExecutionPlan results pa pb).1 =
        Status.notFound "No execution plan worked!" ↔
      ∀ r ∈ results, r.hasFailure = true) := by
  unfold BestCudnnConvExecutionPlan
  dsimp only
  split
  case isTrue h =>
    simp only [beq_iff_eq] at h
    constructor
    · intro _
      exact (allFailed_iff results).mp ((planIdx_neg_one_iff results).mp h.1)
    · intro _
      rfl
  case isFalse h =>
    simp only [beq_iff_eq] at h
    constructor
    · intro hcon
      cases hcon
    · intro hall
      exfalso
      apply h
      constructor
      · exact (planIdx_neg_one_iff results).mpr ((allFailed_iff results).mpr hall)
      · exact (planIdxNoScratch_neg_one_iff results).mpr
          (fun j hN => (allFailed_iff results).mpr hall j (noScratchAt_survivesAt hN))
  
/-- The plan status is `ok` exactly when some candidate survives. -/
theorem plan_status_ok_iff (results : List AutotuneExecutionPlanResult)
    (pa pb : Int) :
    ((BestCudnnConvExecutionPlan results pa pb).1 = Status.ok ↔
      ∃ j, SurvivesAt results j) := by
  unfold BestCudnnConvExecutionPlan
  dsimp only
  split
  case isTrue h =>
    simp only [beq_iff_eq] at h
    constructor
    · intro hcon
      cases hcon
    · intro ⟨j, hj⟩
      exact absurd hj ((planIdx_neg_one_iff results).mp h.1 j)
  case isFalse h =>
    simp only [beq_iff_eq] at h
    constructor
    · intro _
      by_contra hno
      push_neg at hno
      apply h
      refine ⟨(planIdx_neg_one_iff results).mpr hno, ?_⟩
      exact (planIdxNoScratch_neg_one_iff results).mpr
        (fun j hN => hno j (noScratchAt_survivesAt hN))
    · intro _
      rfl

theorem bestAlgo_eq_nil {results : List AutotuneResult} {det : Bool}
    {cfg : AlgorithmConfig} (hf : results.filter (fun r => !r.hasFailure) = []) :
    BestCudnnConvAlgorithm results det cfg =
      (Status.notFound "No algorithm worked!", cfg) := by
  unfold BestCudnnConvAlgorithm
  rw [hf]

theorem bestAlgo_eq_cons {results : List AutotuneResult} {det : Bool}
    {cfg : AlgorithmConfig} {f₀ : AutotuneResult} {ftail : List AutotuneResult}
    (hf : results.filter (fun r => !r.hasFailure) = f₀ :: ftail) :
    BestCudnnConvAlgorithm results det cfg =
      (Status.ok,
        setNoScratch det ((f₀ :: ftail).filter (fun r => r.scratchBytes == 0))
          { cfg with
            algorithm :=
              some (descOf (if det then f₀ else minElement f₀ ftail)) }) := by
  unfold BestCudnnConvAlgorithm
  rw [hf]

theorem setNoScratch_algorithm (det : Bool) (ns : List AutotuneResult)
    (cfg : AlgorithmConfig) :
    (setNoScratch det ns cfg).algorithm = cfg.algorithm := by
  cases ns <;> rfl

theorem setNoScratch_nil (det : Bool) (cfg : AlgorithmConfig) :
    setNoScratch det [] cfg = cfg := rfl

theorem setNoScratch_cons (det : Bool) (n₀ : AutotuneResult)
    (ntail : List AutotuneResult) (cfg : AlgorithmConfig) :
    (setNoScratch det (n₀ :: ntail) cfg).algorithmNoScratch =
      some (descOf (if det then n₀ else minElement n₀ ntail)) := rfl

end GpuUtils

namespace GpuUtils

/-- The stable minimum is a member of its list. -/
theorem minElement_mem (f₀ : AutotuneResult) (ftail : List AutotuneResult) :
    minElement f₀ ftail ∈ f₀ :: ftail := by
  obtain ⟨pre, post, hdec, _, _⟩ := minElement_stable ftail f₀
  rw [hdec]
  exact List.mem_append.mpr (Or.inr (List.mem_cons_self _ _))

/-- C1: with determinism not required, both selectors pick, for the
primary slot and for the no-scratch slot, the non-failed candidate with
minimal measured run time, breaking ties in favour of the candidate that
appears first in input order. -/
theorem C1_selector_stable_minimum
    (results : List AutotuneResult) (cfg : AlgorithmConfig)
    (presults : List AutotuneExecutionPlanResult) (pa pb : Int) :
    (survivors results ≠ [] →
      (BestCudnnConvAlgorithm results false cfg).1 = Status.ok ∧
      (∃ r, IsStableMin (survivors results) r ∧
        (BestCudnnConvAlgorithm results false cfg).2.algorithm =
          some (descOf r)) ∧
      (survivorsNoScratch results ≠ [] →
        ∃ r, IsStableMin (survivorsNoScratch results) r ∧
          (BestCudnnConvAlgorithm results false cfg).2.algorithmNoScratch =
            some (descOf r))) ∧
    ((∃ j, SurvivesAt presults j) →
      IsStableMinIdx presults (SurvivesAt presults)
        (BestCudnnConvExecutionPlan presults pa pb).2.1) ∧
    ((∃ j, NoScratchAt presults j) →
      IsStableMinIdx presults (NoScratchAt presults)
        (BestCudnnConvExecutionPlan presults pa pb).2.2) := by
  have hsurv : survivors results = results.filter (fun r => !r.hasFailure) := rfl
  refine ⟨?_, ?_, ?_⟩
  · intro hne
    cases hf : results.filter (fun r => !r.hasFailure) with
    | nil => exact absurd (hsurv.trans hf) hne
    | cons f₀ ftail =>
      rw [bestAlgo_eq_cons hf]
      refine ⟨rfl, ⟨minElement f₀ ftail, ?_, ?_⟩, ?_⟩
      · rw [hsurv, hf]
        exact minElement_isStableMin f₀ ftail
      · rw [setNoScratch_algorithm]
        simp
      · intro hnsne
        have hns : survivorsNoScratch results =
            (f₀ :: ftail).filter (fun r => r.scratchBytes == 0) := by
          unfold survivorsNoScratch
          rw [hsurv, hf]
        cases hnf : (f₀ :: ftail).filter (fun r => r.scratchBytes == 0) with
        | nil => exact absurd (hns.trans hnf) hnsne
        | cons n₀ ntail =>
          refine ⟨minElement n₀ ntail, ?_, ?_⟩
          · rw [hns, hnf]
            exact minElement_isStableMin n₀ ntail
          · simp [setNoScratch_cons]
  · intro h
    obtain ⟨j, hj⟩ := h
    rw [plan_snd]
    rcases planResult_spec presults with ⟨_, hall⟩ | hmin
    · exact absurd hj (hall j)
    · exact hmin
  · intro h
    obtain ⟨j, hj⟩ := h
    rw [plan_snd]
    rcases planResultNoScratch_spec presults with ⟨_, hall⟩ | hmin
    · exact absurd hj (hall j)
    · exact hmin

/-- Witness for C1: the spec's tie-break example — two surviving
zero-scratch candidates with equal 10-tick run times — instantiated for
both selectors. -/
theorem C1_selector_stable_minimum_witness :
    ((BestCudnnConvAlgorithm
        [⟨false, 10, 0, 0, false⟩, ⟨false, 10, 0, 1, false⟩] false
        ⟨none, none⟩).1 = Status.ok ∧
      (∃ r, IsStableMin
          (survivors [⟨false, 10, 0, 0, false⟩, ⟨false, 10, 0, 1, false⟩]) r ∧
        (BestCudnnConvAlgorithm
          [⟨false, 10, 0, 0, false⟩, ⟨false, 10, 0, 1, false⟩] false
          ⟨none, none⟩).2.algorithm = some (descOf r)) ∧
      (survivorsNoScratch
          [⟨false, 10, 0, 0, false⟩, ⟨false, 10, 0, 1, false⟩] ≠ [] →
        ∃ r, IsStableMin
            (survivorsNoScratch
              [⟨false, 10, 0, 0, false⟩, ⟨false, 10, 0, 1, false⟩]) r ∧
          (BestCudnnConvAlgorithm
            [⟨false, 10, 0, 0, false⟩, ⟨false, 10, 0, 1, false⟩] false
            ⟨none, none⟩).2.algorithmNoScratch = some (descOf r))) ∧
    IsStableMinIdx [⟨false, 10, 0⟩, ⟨false, 10, 0⟩]
      (SurvivesAt [⟨false, 10, 0⟩, ⟨false, 10, 0⟩])
      (BestCudnnConvExecutionPlan
        [⟨false, 10, 0⟩, ⟨false, 10, 0⟩] (-1) (-1)).2.1 ∧
    IsStableMinIdx [⟨false, 10, 0⟩, ⟨false, 10, 0⟩]
      (NoScratchAt [⟨false, 10, 0⟩, ⟨false, 10, 0⟩])
      (BestCudnnConvExecutionPlan
        [⟨false, 10, 0⟩, ⟨false, 10, 0⟩] (-1) (-1)).2.2 :=
  ⟨(C1_selector_stable_minimum
      [⟨false, 10, 0, 0, false⟩, ⟨false, 10, 0, 1, false⟩] ⟨none, none⟩
      [⟨false, 10, 0⟩, ⟨false, 10, 0⟩] (-1) (-1)).1 (by decide),
   (C1_selector_stable_minimum
      [⟨false, 10, 0, 0, false⟩, ⟨false, 10, 0, 1, false⟩] ⟨none, none⟩
      [⟨false, 10, 0⟩, ⟨false, 10, 0⟩] (-1) (-1)).2.1 ⟨0, by decide⟩,
   (C1_selector_stable_minimum
      [⟨false, 10, 0, 0, false⟩, ⟨false, 10, 0, 1, false⟩] ⟨none, none⟩
      [⟨false, 10, 0⟩, ⟨false, 10, 0⟩] (-1) (-1)).2.2 ⟨0, by decide⟩⟩

/-- C2: each selector reports its not-found error exactly when every
input candidate carries a failure. -/
theorem C2_not_found_iff_all_failed
    (results : List AutotuneResult) (det : Bool) (cfg : AlgorithmConfig)
    (presults : List AutotuneExecutionPlanResult) (pa pb : Int) :
    ((BestCudnnConvAlgorithm results det cfg).1 =
        Status.notFound "No algorithm worked!" ↔
      ∀ r ∈ results, r.hasFailure = true) ∧
    ((BestCudnnConvExecutionPlan presults pa pb).1 =
        Status.notFound "No execution plan worked!" ↔
      ∀ r ∈ presults, r.hasFailure = true) := by
  constructor
  · cases hf : results.filter (fun r => !r.hasFailure) with
    | nil =>
      rw [bestAlgo_eq_nil hf]
      constructor
      · intro _ r hr
        have := List.filter_eq_nil_iff.mp hf r hr
        simpa using this
      · intro _
        rfl
    | cons f₀ ftail =>
      rw [bestAlgo_eq_cons hf]
      constructor
      · intro hcon
        exact Status.noConfusion hcon
      · intro hall
        exfalso
        have hmem : f₀ ∈ results.filter (fun r => !r.hasFailure) := by
          rw [hf]
          exact List.mem_cons_self _ _
        obtain ⟨hmemr, hpass⟩ := List.mem_filter.mp hmem
        rw [hall f₀ hmemr] at hpass
        cases hpass
  · exact plan_status_notFound_iff presults pa pb

end GpuUtils

namespace GpuUtils

/-- C5 counterexample: `BestCudnnConvExecutionPlan` contains no
determinism branch at all, so the determinism policy cannot make it pick
the first candidate in input order.  On [(ok, 10 ticks, 0 B),
(ok, 5 ticks, 0 B)] the first surviving index is 0, yet the selector
returns index 1 for both slots — under any policy, since the policy is
not an input of the function. -/
theorem C5_counterexample :
    BestCudnnConvExecutionPlan [⟨false, 10, 0⟩, ⟨false, 5, 0⟩] (-1) (-1) =
      (Status.ok, 1, 1) ∧
    SurvivesAt [⟨false, 10, 0⟩, ⟨false, 5, 0⟩] 0 ∧
    (1 : Int) ≠ (0 : Int) := by
  refine ⟨by decide, ⟨⟨false, 10, 0⟩, rfl, rfl⟩, by decide⟩

/-- C5 (amended): when determinism is required, `BestCudnnConvAlgorithm`
selects the first candidate in input order from each subset;
`BestCudnnConvExecutionPlan`, which has no determinism branch, selects
by minimum measured run time regardless of the determinism policy. -/
theorem C5_determinism_selection
    (results : List AutotuneResult) (cfg : AlgorithmConfig)
    (presults : List AutotuneExecutionPlanResult) (pa pb : Int) :
    (∀ f₀ ftail, survivors results = f₀ :: ftail →
      (BestCudnnConvAlgorithm results true cfg).1 = Status.ok ∧
      (BestCudnnConvAlgorithm results true cfg).2.algorithm =
        some (descOf f₀)) ∧
    (∀ n₀ ntail, survivorsNoScratch results = n₀ :: ntail →
      (BestCudnnConvAlgorithm results true cfg).2.algorithmNoScratch =
        some (descOf n₀)) ∧
    ((∃ j, SurvivesAt presults j) →
      IsStableMinIdx presults (SurvivesAt presults)
        (BestCudnnConvExecutionPlan presults pa pb).2.1) := by
  have hsurv : survivors results = results.filter (fun r => !r.hasFailure) := rfl
  refine ⟨?_, ?_, ?_⟩
  · intro f₀ ftail hf
    rw [hsurv] at hf
    rw [bestAlgo_eq_cons hf]
    refine ⟨rfl, ?_⟩
    rw [setNoScratch_algorithm]
    simp
  · intro n₀ ntail hnf
    have hns : survivorsNoScratch results =
        (results.filter (fun r => !r.hasFailure)).filter
          (fun r => r.scratchBytes == 0) := rfl
    cases hf : results.filter (fun r => !r.hasFailure) with
    | nil =>
      exfalso
      rw [hns, hf] at hnf
      cases hnf
    | cons f₀ ftail =>
      rw [hns, hf] at hnf
      rw [bestAlgo_eq_cons hf, hnf]
      simp [setNoScratch_cons]
  · intro h
    obtain ⟨j, hj⟩ := h
    rw [plan_snd]
    rcases planResult_spec presults with ⟨_, hall⟩ | hmin
    · exact absurd hj (hall j)
    · exact hmin

/-- Witness for the amended C5: determinism required, two survivors with
the faster one second — `BestCudnnConvAlgorithm` still picks the first
(algorithm id 0), while the plan selector picks the faster index 1. -/
theorem C5_determinism_selection_witness :
    (BestCudnnConvAlgorithm
        [⟨false, 10, 0, 0, false⟩, ⟨false, 5, 0, 1, false⟩] true
        ⟨none, none⟩).1 = Status.ok ∧
    (BestCudnnConvAlgorithm
        [⟨false, 10, 0, 0, false⟩, ⟨false, 5, 0, 1, false⟩] true
        ⟨none, none⟩).2.algorithm = some (descOf ⟨false, 10, 0, 0, false⟩) ∧
    (BestCudnnConvAlgorithm
        [⟨false, 10, 0, 0, false⟩, ⟨false, 5, 0, 1, false⟩] true
        ⟨none, none⟩).2.algorithmNoScratch =
      some (descOf ⟨false, 10, 0, 0, false⟩) ∧
    IsStableMinIdx [⟨false, 10, 0⟩, ⟨false, 5, 0⟩]
      (SurvivesAt [⟨false, 10, 0⟩, ⟨false, 5, 0⟩])
      (BestCudnnConvExecutionPlan
        [⟨false, 10, 0⟩, ⟨false, 5, 0⟩] (-1) (-1)).2.1 :=
  ⟨((C5_determinism_selection
      [⟨false, 10, 0, 0, false⟩, ⟨false, 5, 0, 1, false⟩] ⟨none, none⟩
      [⟨false, 10, 0⟩, ⟨false, 5, 0⟩] (-1) (-1)).1
      ⟨false, 10, 0, 0, false⟩ [⟨false, 5, 0, 1, false⟩] (by decide)).1,
   ((C5_determinism_selection
      [⟨false, 10, 0, 0, false⟩, ⟨false, 5, 0, 1, false⟩] ⟨none, none⟩
      [⟨false, 10, 0⟩, ⟨false, 5, 0⟩] (-1) (-1)).1
      ⟨false, 10, 0, 0, false⟩ [⟨false, 5, 0, 1, false⟩] (by decide)).2,
   (C5_determinism_selection
      [⟨false, 10, 0, 0, false⟩, ⟨false, 5, 0, 1, false⟩] ⟨none, none⟩
      [⟨false, 10, 0⟩, ⟨false, 5, 0⟩] (-1) (-1)).2.1
      ⟨false, 10, 0, 0, false⟩ [⟨false, 5, 0, 1, false⟩] (by decide),
   (C5_determinism_selection
      [⟨false, 10, 0, 0, false⟩, ⟨false, 5, 0, 1, false⟩] ⟨none, none⟩
      [⟨false, 10, 0⟩, ⟨false, 5, 0⟩] (-1) (-1)).2.2 ⟨0, by decide⟩⟩

end GpuUtils

namespace GpuUtils

/-- C6: the primary choice ranges over all survivors (scratch allowed),
the no-scratch choice only over zero-scratch survivors; an empty
zero-scratch subset leaves the no-scratch slot unset (config slot keeps
its prior value; plan index stays -1) while the call still succeeds. -/
theorem C6_scratch_partition
    (results : List AutotuneResult) (det : Bool) (cfg : AlgorithmConfig)
    (presults : List AutotuneExecutionPlanResult) (pa pb : Int) :
    (survivors results ≠ [] →
      (BestCudnnConvAlgorithm results det cfg).1 = Status.ok ∧
      (∃ r ∈ survivors results,
        (BestCudnnConvAlgorithm results det cfg).2.algorithm =
          some (descOf r)) ∧
      (survivorsNoScratch results = [] →
        (BestCudnnConvAlgorithm results det cfg).2.algorithmNoScratch =
          cfg.algorithmNoScratch) ∧
      (survivorsNoScratch results ≠ [] →
        ∃ r ∈ survivorsNoScratch results,
          (BestCudnnConvAlgorithm results det cfg).2.algorithmNoScratch =
            some (descOf r))) ∧
    ((∃ j, SurvivesAt presults j) →
      (BestCudnnConvExecutionPlan presults pa pb).1 = Status.ok ∧
      (∃ i : Nat, (BestCudnnConvExecutionPlan presults pa pb).2.1 = (i : Int) ∧
        SurvivesAt presults i) ∧
      ((∀ j, ¬ NoScratchAt presults j) →
        (BestCudnnConvExecutionPlan presults pa pb).2.2 = -1) ∧
      ((∃ j, NoScratchAt presults j) →
        ∃ i : Nat, (BestCudnnConvExecutionPlan presults pa pb).2.2 = (i : Int) ∧
          NoScratchAt presults i)) := by
  have hsurv : survivors results = results.filter (fun r => !r.hasFailure) := rfl
  constructor
  · intro hne
    cases hf : results.filter (fun r => !r.hasFailure) with
    | nil => exact absurd (hsurv.trans hf) hne
    | cons f₀ ftail =>
      rw [bestAlgo_eq_cons hf]
      have hns : survivorsNoScratch results =
          (f₀ :: ftail).filter (fun r => r.scratchBytes == 0) := by
        unfold survivorsNoScratch
        rw [hsurv, hf]
      refine ⟨rfl, ?_, ?_, ?_⟩
      · refine ⟨if det then f₀ else minElement f₀ ftail, ?_, ?_⟩
        · rw [hsurv, hf]
          cases det with
          | true => simp
          | false => simpa using minElement_mem f₀ ftail
        · rw [setNoScratch_algorithm]
      · intro hnsnil
        rw [hns] at hnsnil
        rw [hnsnil, setNoScratch_nil]
      · intro hnsne
        cases hnf : (f₀ :: ftail).filter (fun r => r.scratchBytes == 0) with
        | nil => exact absurd (hns.trans hnf) hnsne
        | cons n₀ ntail =>
          refine ⟨if det then n₀ else minElement n₀ ntail, ?_, ?_⟩
          · rw [hns, hnf]
            cases det with
            | true => simp
            | false => simpa using minElement_mem n₀ ntail
          · simp [setNoScratch_cons]
  · intro h
    obtain ⟨j, hj⟩ := h
    refine ⟨(plan_status_ok_iff presults pa pb).mpr ⟨j, hj⟩, ?_, ?_, ?_⟩
    · rw [plan_snd]
      rcases planResult_spec presults with ⟨_, hall⟩ | ⟨i, hv, hPi, _, _⟩
      · exact absurd hj (hall j)
      · exact ⟨i, hv, hPi⟩
    · intro hnone
      rw [plan_snd]
      exact (planIdxNoScratch_neg_one_iff presults).mpr hnone
    · intro h'
      obtain ⟨j', hj'⟩ := h'
      rw [plan_snd]
      rcases planResultNoScratch_spec presults with ⟨_, hall⟩ | ⟨i, hv, hPi, _, _⟩
      · exact absurd hj' (hall j')
      · exact ⟨i, hv, hPi⟩

/-- Witness for C6: the spec's scratch-partition example
[(id 0, 5 ticks, 128 B), (id 1, 8 ticks, 0 B)] plus a plan input whose
only survivor needs scratch (so the plan no-scratch index stays -1). -/
theorem C6_scratch_partition_witness :
    ((BestCudnnConvAlgorithm
        [⟨false, 5, 128, 0, false⟩, ⟨false, 8, 0, 1, false⟩] false
        ⟨none, none⟩).1 = Status.ok ∧
      (∃ r ∈ survivors [⟨false, 5, 128, 0, false⟩, ⟨false, 8, 0, 1, false⟩],
        (BestCudnnConvAlgorithm
          [⟨false, 5, 128, 0, false⟩, ⟨false, 8, 0, 1, false⟩] false
          ⟨none, none⟩).2.algorithm = some (descOf r)) ∧
      (survivorsNoScratch
          [⟨false, 5, 128, 0, false⟩, ⟨false, 8, 0, 1, false⟩] = [] →
        (BestCudnnConvAlgorithm
          [⟨false, 5, 128, 0, false⟩, ⟨false, 8, 0, 1, false⟩] false
          ⟨none, none⟩).2.algorithmNoScratch = none) ∧
      (survivorsNoScratch
          [⟨false, 5, 128, 0, false⟩, ⟨false, 8, 0, 1, false⟩] ≠ [] →
        ∃ r ∈ survivorsNoScratch
            [⟨false, 5, 128, 0, false⟩, ⟨false, 8, 0, 1, false⟩],
          (BestCudnnConvAlgorithm
            [⟨false, 5, 128, 0, false⟩, ⟨false, 8, 0, 1, false⟩] false
            ⟨none, none⟩).2.algorithmNoScratch = some (descOf r))) ∧
    ((BestCudnnConvExecutionPlan [⟨false, 10, 7⟩] (-1) (-1)).1 = Status.ok ∧
      (∃ i : Nat,
        (BestCudnnConvExecutionPlan [⟨false, 10, 7⟩] (-1) (-1)).2.1 =
          (i : Int) ∧ SurvivesAt [⟨false, 10, 7⟩] i) ∧
      ((∀ j, ¬ NoScratchAt [⟨false, 10, 7⟩] j) →
        (BestCudnnConvExecutionPlan [⟨false, 10, 7⟩] (-1) (-1)).2.2 = -1) ∧
      ((∃ j, NoScratchAt [⟨false, 10, 7⟩] j) →
        ∃ i : Nat,
          (BestCudnnConvExecutionPlan [⟨false, 10, 7⟩] (-1) (-1)).2.2 =
            (i : Int) ∧ NoScratchAt [⟨false, 10, 7⟩] i)) :=
  ⟨(C6_scratch_partition
      [⟨false, 5, 128, 0, false⟩, ⟨false, 8, 0, 1, false⟩] false ⟨none, none⟩
      [⟨false, 10, 7⟩] (-1) (-1)).1 (by decide),
   (C6_scratch_partition
      [⟨false, 5, 128, 0, false⟩, ⟨false, 8, 0, 1, false⟩] false ⟨none, none⟩
      [⟨false, 10, 7⟩] (-1) (-1)).2 ⟨0, by decide⟩⟩

/-- C10: on the not-found error `BestCudnnConvAlgorithm` leaves the
caller's `AlgorithmConfig` untouched, while `BestCudnnConvExecutionPlan`
always overwrites both output indices independently of their prior
values, leaving an index at -1 exactly when no candidate of its kind
qualified. -/
theorem C10_error_output_state
    (results : List AutotuneResult) (det : Bool) (cfg : AlgorithmConfig)
    (presults : List AutotuneExecutionPlanResult) (pa pb pa2 pb2 : Int) :
    ((BestCudnnConvAlgorithm results det cfg).1 ≠ Status.ok →
      (BestCudnnConvAlgorithm results det cfg).2 = cfg) ∧
    BestCudnnConvExecutionPlan presults pa pb =
      BestCudnnConvExecutionPlan presults pa2 pb2 ∧
    ((BestCudnnConvExecutionPlan presults pa pb).2.1 = -1 ↔
      ∀ j, ¬ SurvivesAt presults j) ∧
    ((BestCudnnConvExecutionPlan presults pa pb).2.2 = -1 ↔
      ∀ j, ¬ NoScratchAt presults j) := by
  refine ⟨?_, rfl, ?_, ?_⟩
  · intro hne
    cases hf : results.filter (fun r => !r.hasFailure) with
    | nil =>
      rw [bestAlgo_eq_nil hf]
    | cons f₀ ftail =>
      exfalso
      apply hne
      rw [bestAlgo_eq_cons hf]
  · rw [plan_snd]
    exact planIdx_neg_one_iff presults
  · rw [plan_snd]
    exact planIdxNoScratch_neg_one_iff presults

/-- Witness for C10: a single failed candidate — the config (with a
sentinel prior value) is returned untouched, and both plan indices are
-1. -/
theorem C10_error_output_state_witness :
    (BestCudnnConvAlgorithm [⟨true, 5, 0, 0, false⟩] false
      ⟨none, some ⟨9, true⟩⟩).2 = ⟨none, some ⟨9, true⟩⟩ ∧
    BestCudnnConvExecutionPlan [⟨true, 5, 0⟩] 3 4 =
      BestCudnnConvExecutionPlan [⟨true, 5, 0⟩] (-1) (-1) :=
  ⟨(C10_error_output_state [⟨true, 5, 0, 0, false⟩] false ⟨none, some ⟨9, true⟩⟩
      [⟨true, 5, 0⟩] 3 4 (-1) (-1)).1 (by decide),
   (C10_error_output_state [⟨true, 5, 0, 0, false⟩] false ⟨none, some ⟨9, true⟩⟩
      [⟨true, 5, 0⟩] 3 4 (-1) (-1)).2.1⟩

end GpuUtils

namespace GpuExecutable

theorem find_filter {p q : Nat × Option Nat → Bool}
    (m : List (Nat × Option Nat)) (himp : ∀ x, q x = true → p x = true) :
    (m.filter p).find? q = m.find? q := by
  induction m with
  | nil => rfl
  | cons a m ih =>
    cases hq : q a with
    | true =>
      have hp := himp a hq
      rw [List.filter_cons_of_pos hp, List.find?_cons_of_pos _ hq,
        List.find?_cons_of_pos _ hq]
    | false =>
      cases hp : p a with
      | true =>
        rw [List.filter_cons_of_pos hp, List.find?_cons_of_neg _ (by simp [hq]),
          List.find?_cons_of_neg _ (by simp [hq]), ih]
      | false =>
        rw [List.filter_cons_of_neg (by simp [hp]),
          List.find?_cons_of_neg _ (by simp [hq]), ih]

theorem mapFind_insert_self (m : List (Nat × Option Nat)) (k : Nat)
    (v : Option Nat) : mapFind (mapInsert m k v) k = some v := by
  simp [mapFind, mapInsert]

theorem mapFind_insert_ne (m : List (Nat × Option Nat)) (k k' : Nat)
    (v : Option Nat) (h : k' ≠ k) :
    mapFind (mapInsert m k v) k' = mapFind m k' := by
  unfold mapFind mapInsert
  rw [List.find?_cons_of_neg _ (by simpa using fun hh => h hh.symm)]
  rw [find_filter m (fun x hx => ?_)]
  have hx' : x.1 = k' := by simpa using hx
  simpa [hx'] using h

theorem mapFind_erase_self (m : List (Nat × Option Nat)) (k : Nat) :
    mapFind (mapErase m k) k = none := by
  unfold mapFind mapErase
  rw [List.find?_eq_none.mpr]
  · rfl
  · intro x hx
    have hne := (List.mem_filter.mp hx).2
    simp only [decide_not, Bool.not_eq_true', decide_eq_false_iff_not] at hne
    simpa using hne

theorem mapFind_erase_ne (m : List (Nat × Option Nat)) (k k' : Nat)
    (h : k' ≠ k) : mapFind (mapErase m k) k' = mapFind m k' := by
  unfold mapFind mapErase
  rw [find_filter m (fun x hx => ?_)]
  have hx' : x.1 = k' := by simpa using hx
  simpa [hx'] using h

namespace MutexedGraphExecCache

theorem get_eq_none {c : MutexedGraphExecCache} {k : Nat}
    (h : mapFind c.gpuKeyToExecGraphsMap k = none) :
    get_exec_graph c k = (c, none) := by
  unfold get_exec_graph
  rw [h]

theorem get_eq_dangling {c : MutexedGraphExecCache} {k : Nat}
    (h : mapFind c.gpuKeyToExecGraphsMap k = some none) :
    get_exec_graph c k =
      ({ c with gpuKeyToExecGraphsMap := mapErase c.gpuKeyToExecGraphsMap k },
       none) := by
  unfold get_exec_graph
  rw [h]

theorem get_eq_hit {c : MutexedGraphExecCache} {k g : Nat}
    (h : mapFind c.gpuKeyToExecGraphsMap k = some (some g))
    (hg : g ∈ c.gpuExecGraphs) :
    get_exec_graph c k =
      ({ c with
         gpuExecGraphs := g :: c.gpuExecGraphs.filter (fun x => x ≠ g)
         gpuKeyToExecGraphsMap :=
           mapInsert c.gpuKeyToExecGraphsMap k (some g) },
       some g) := by
  unfold get_exec_graph
  rw [h]
  dsimp only
  rw [if_pos hg]

theorem get_eq_stale {c : MutexedGraphExecCache} {k g : Nat}
    (h : mapFind c.gpuKeyToExecGraphsMap k = some (some g))
    (hg : g ∉ c.gpuExecGraphs) :
    get_exec_graph c k =
      ({ c with gpuKeyToExecGraphsMap := mapErase c.gpuKeyToExecGraphsMap k },
       none) := by
  unfold get_exec_graph
  rw [h]
  dsimp only
  rw [if_neg hg]

theorem update_eq_evict {c : MutexedGraphExecCache} {key g : Nat}
    (h : ((g :: c.gpuExecGraphs).length : Int) >
      evictionThreshold c.cacheSize) :
    update_cache c key g =
      { cacheSize := c.cacheSize
        gpuExecGraphs := (g :: c.gpuExecGraphs).dropLast
        gpuKeyToExecGraphsMap :=
          mapInsert c.gpuKeyToExecGraphsMap key
            (g :: c.gpuExecGraphs).dropLast.head?
        destroyed :=
          (g :: c.gpuExecGraphs).getLast (List.cons_ne_nil g c.gpuExecGraphs) ::
            c.destroyed } := by
  unfold update_cache
  dsimp only
  rw [if_pos h]

theorem update_eq_noevict {c : MutexedGraphExecCache} {key g : Nat}
    (h : ¬ ((g :: c.gpuExecGraphs).length : Int) >
      evictionThreshold c.cacheSize) :
    update_cache c key g =
      { c with
        gpuExecGraphs := g :: c.gpuExecGraphs
        gpuKeyToExecGraphsMap :=
          mapInsert c.gpuKeyToExecGraphsMap key (some g) } := by
  unfold update_cache
  dsimp only
  rw [if_neg h]

end MutexedGraphExecCache

end GpuExecutable

namespace GpuExecutable

theorem getLast_not_mem_dropLast {l : List Nat} (hne : l ≠ [])
    (hnodup : l.Nodup) : l.getLast hne ∉ l.dropLast := by
  intro hmem
  have hdec := List.dropLast_append_getLast hne
  rw [← hdec] at hnodup
  rcases List.nodup_append.mp hnodup with ⟨_, _, hdisj⟩
  exact hdisj hmem (List.mem_singleton.mpr rfl)

namespace MutexedGraphExecCache

/-- C3: for a configured (non-negative) capacity, a Put that overflows
it inserts the new graph at the most-recently-used position, evicts
exactly the least-recently-used graph and releases its device resource
while the evicted entry's key is still in the index (removal happens at
the next Get); that subsequent Get on the evicted key reports absent and
removes the key.  (A negative `cache_size_` reads as a huge unsigned
value in the source comparison and never evicts, hence `hpos`.) -/
theorem C3_put_eviction (c : MutexedGraphExecCache) (key g keyEv bEv : Nat)
    (hpos : 0 ≤ c.cacheSize)
    (hfull : (c.gpuExecGraphs.length : Int) + 1 > c.cacheSize)
    (hnodup : c.gpuExecGraphs.Nodup)
    (hfresh : g ∉ c.gpuExecGraphs)
    (hkey : keyEv ≠ key)
    (hmap : mapFind c.gpuKeyToExecGraphsMap keyEv = some (some bEv))
    (hlast : c.gpuExecGraphs.getLast? = some bEv) :
    (update_cache c key g).gpuExecGraphs = g :: c.gpuExecGraphs.dropLast ∧
    (update_cache c key g).destroyed = bEv :: c.destroyed ∧
    mapFind (update_cache c key g).gpuKeyToExecGraphsMap keyEv =
      some (some bEv) ∧
    (get_exec_graph (update_cache c key g) keyEv).2 = none ∧
    mapFind
      ((get_exec_graph (update_cache c key g) keyEv).1).gpuKeyToExecGraphsMap
      keyEv = none := by
  have hne : c.gpuExecGraphs ≠ [] := by
    intro hnil
    rw [hnil] at hlast
    cases hlast
  have hb : bEv = c.gpuExecGraphs.getLast hne := by
    have h' := List.getLast?_eq_getLast_of_ne_nil hne
    rw [hlast] at h'
    exact Option.some.inj h'
  have hcond : ((g :: c.gpuExecGraphs).length : Int) >
      evictionThreshold c.cacheSize := by
    unfold evictionThreshold
    rw [if_neg (by omega : ¬ c.cacheSize < 0)]
    simp only [List.length_cons]
    push_cast
    omega
  have hupd := @update_eq_evict c key g hcond
  have hdl : (g :: c.gpuExecGraphs).dropLast = g :: c.gpuExecGraphs.dropLast :=
    List.dropLast_cons_of_ne_nil hne
  have hgl : (g :: c.gpuExecGraphs).getLast
      (List.cons_ne_nil g c.gpuExecGraphs) = c.gpuExecGraphs.getLast hne :=
    List.getLast_cons hne
  have h1 : (update_cache c key g).gpuExecGraphs =
      g :: c.gpuExecGraphs.dropLast := by
    rw [hupd, hdl]
  have h2 : (update_cache c key g).destroyed = bEv :: c.destroyed := by
    rw [hupd]
    simp only [hgl, hb]
  have h3 : mapFind (update_cache c key g).gpuKeyToExecGraphsMap keyEv =
      some (some bEv) := by
    rw [hupd]
    simp only
    rw [mapFind_insert_ne _ _ _ _ hkey]
    exact hmap
  have hbmem : bEv ∈ c.gpuExecGraphs := by
    rw [hb]
    exact List.getLast_mem hne
  have hnot : bEv ∉ (update_cache c key g).gpuExecGraphs := by
    rw [h1]
    intro hmem
    rcases List.mem_cons.mp hmem with h' | h'
    · rw [h'] at hbmem
      exact hfresh hbmem
    · rw [hb] at h'
      exact getLast_not_mem_dropLast hne hnodup h'
  have hget := get_eq_stale h3 hnot
  refine ⟨h1, h2, h3, ?_, ?_⟩
  · rw [hget]
  · rw [hget]
    exact mapFind_erase_self _ _

/-- Witness for C3: capacity-1 cache holding graph 5 under key 100; Put
of graph 7 under key 200 evicts and destroys graph 5, and the following
Get on key 100 reports absent and erases the stale index entry. -/
theorem C3_put_eviction_witness :
    (update_cache ⟨1, [5], [(100, some 5)], []⟩ 200 7).gpuExecGraphs = [7] ∧
    (update_cache ⟨1, [5], [(100, some 5)], []⟩ 200 7).destroyed = [5] ∧
    mapFind (update_cache
      ⟨1, [5], [(100, some 5)], []⟩ 200 7).gpuKeyToExecGraphsMap 100 =
      some (some 5) ∧
    (get_exec_graph (update_cache ⟨1, [5], [(100, some 5)], []⟩ 200 7) 100).2 =
      none ∧
    mapFind ((get_exec_graph (update_cache
      ⟨1, [5], [(100, some 5)], []⟩ 200 7) 100).1).gpuKeyToExecGraphsMap 100 =
      none :=
  C3_put_eviction ⟨1, [5], [(100, some 5)], []⟩ 200 7 100 5
    (by decide) (by decide) (by decide) (by decide) (by decide) (by decide)
    (by decide)

/-- C4: Get on a key whose graph is in the list promotes it to the
most-recently-used position and returns it, preserving the set of cached
graphs; Get on a key whose graph was evicted from the list erases the
stale index entry and reports absent, leaving the list untouched (the
embedding is total, so no invalid position is ever dereferenced). -/
theorem C4_get_promote_or_heal (c : MutexedGraphExecCache) (k g : Nat) :
    (mapFind c.gpuKeyToExecGraphsMap k = some (some g) →
      g ∈ c.gpuExecGraphs →
      (get_exec_graph c k).2 = some g ∧
      ((get_exec_graph c k).1).gpuExecGraphs.head? = some g ∧
      (∀ x, x ∈ ((get_exec_graph c k).1).gpuExecGraphs ↔
        x ∈ c.gpuExecGraphs) ∧
      mapFind ((get_exec_graph c k).1).gpuKeyToExecGraphsMap k =
        some (some g)) ∧
    (mapFind c.gpuKeyToExecGraphsMap k = some (some g) →
      g ∉ c.gpuExecGraphs →
      (get_exec_graph c k).2 = none ∧
      mapFind ((get_exec_graph c k).1).gpuKeyToExecGraphsMap k = none ∧
      ((get_exec_graph c k).1).gpuExecGraphs = c.gpuExecGraphs) := by
  constructor
  · intro hm hg
    rw [get_eq_hit hm hg]
    refine ⟨rfl, rfl, ?_, mapFind_insert_self _ _ _⟩
    intro x
    constructor
    · intro hx
      rcases List.mem_cons.mp hx with h' | h'
      · rw [h']
        exact hg
      · exact (List.mem_filter.mp h').1
    · intro hx
      by_cases hxg : x = g
      · rw [hxg]
        exact List.mem_cons_self _ _
      · exact List.mem_cons_of_mem _
          (List.mem_filter.mpr ⟨hx, by simpa using hxg⟩)
  · intro hm hg
    rw [get_eq_stale hm hg]
    exact ⟨rfl, mapFind_erase_self _ _, rfl⟩

/-- Witness for C4: a two-entry cache — Get on key 100 (graph 5, LRU)
promotes it to the front and returns it; in a cache whose list no longer
holds graph 5, Get on key 100 erases the entry and reports absent. -/
theorem C4_get_promote_or_heal_witness :
    ((get_exec_graph ⟨2, [7, 5], [(200, some 7), (100, some 5)], []⟩ 100).2 =
        some 5 ∧
      ((get_exec_graph
        ⟨2, [7, 5], [(200, some 7), (100, some 5)], []⟩ 100).1).gpuExecGraphs.head? =
        some 5 ∧
      (∀ x, x ∈ ((get_exec_graph
          ⟨2, [7, 5], [(200, some 7), (100, some 5)], []⟩ 100).1).gpuExecGraphs ↔
        x ∈ [7, 5]) ∧
      mapFind ((get_exec_graph
        ⟨2, [7, 5], [(200, some 7), (100, some 5)], []⟩
          100).1).gpuKeyToExecGraphsMap 100 = some (some 5)) ∧
    ((get_exec_graph ⟨1, [7], [(200, some 7), (100, some 5)], []⟩ 100).2 =
        none ∧
      mapFind ((get_exec_graph
        ⟨1, [7], [(200, some 7), (100, some 5)], []⟩
          100).1).gpuKeyToExecGraphsMap 100 = none ∧
      ((get_exec_graph
        ⟨1, [7], [(200, some 7), (100, some 5)], []⟩ 100).1).gpuExecGraphs =
        [7]) :=
  ⟨(C4_get_promote_or_heal ⟨2, [7, 5], [(200, some 7), (100, some 5)], []⟩
      100 5).1 (by decide) (by decide),
   (C4_get_promote_or_heal ⟨1, [7], [(200, some 7), (100, some 5)], []⟩
      100 5).2 (by decide) (by decide)⟩

end MutexedGraphExecCache

end GpuExecutable

namespace GpuExecutable

namespace MutexedGraphExecCache

/-- C7: the key index and the MRU list stay consistent across Get and
Put, except that an eviction may leave keys pointing at the destroyed
graph; a Get always leaves its own key consistent (self-healing the
stale entry instead of crashing), preserves consistency of every other
key, and a Put leaves the inserted key consistent while any other key
either stays consistent or points exactly at the graph the eviction just
destroyed. -/
theorem C7_index_list_consistency (c : MutexedGraphExecCache) (k k2 g : Nat) :
    Consistent (get_exec_graph c k).1 k ∧
    (Consistent c k2 → Consistent (get_exec_graph c k).1 k2) ∧
    (1 ≤ c.cacheSize → Consistent (update_cache c k g) k) ∧
    (Consistent c k2 → k2 ≠ k →
      (Consistent (update_cache c k g) k2 ∨
        ∃ b, mapFind c.gpuKeyToExecGraphsMap k2 = some (some b) ∧
          (update_cache c k g).destroyed.head? = some b)) := by
  have part1 : ∀ k', Consistent (get_exec_graph c k').1 k' := by
    intro k'
    cases hm : mapFind c.gpuKeyToExecGraphsMap k' with
    | none =>
      rw [get_eq_none hm]
      intro v hv
      rw [hm] at hv
      cases hv
    | some itv =>
      cases itv with
      | none =>
        rw [get_eq_dangling hm]
        intro v hv
        have hv' : mapFind (mapErase c.gpuKeyToExecGraphsMap k') k' =
            some v := hv
        rw [mapFind_erase_self] at hv'
        cases hv'
      | some gv =>
        by_cases hg : gv ∈ c.gpuExecGraphs
        · rw [get_eq_hit hm hg]
          intro v hv
          have hv' : mapFind (mapInsert c.gpuKeyToExecGraphsMap k' (some gv))
              k' = some v := hv
          rw [mapFind_insert_self] at hv'
          obtain rfl := Option.some.inj hv'
          exact ⟨gv, rfl, List.mem_cons_self _ _⟩
        · rw [get_eq_stale hm hg]
          intro v hv
          have hv' : mapFind (mapErase c.gpuKeyToExecGraphsMap k') k' =
              some v := hv
          rw [mapFind_erase_self] at hv'
          cases hv'
  refine ⟨part1 k, ?_, ?_, ?_⟩
  · intro hcons
    by_cases hk : k2 = k
    · subst hk
      exact part1 k2
    · cases hm : mapFind c.gpuKeyToExecGraphsMap k with
      | none =>
        rw [get_eq_none hm]
        exact hcons
      | some itv =>
        cases itv with
        | none =>
          rw [get_eq_dangling hm]
          intro v hv
          have hv' : mapFind (mapErase c.gpuKeyToExecGraphsMap k) k2 =
              some v := hv
          rw [mapFind_erase_ne _ _ _ hk] at hv'
          exact hcons v hv'
        | some gv =>
          by_cases hg : gv ∈ c.gpuExecGraphs
          · rw [get_eq_hit hm hg]
            intro v hv
            have hv' : mapFind (mapInsert c.gpuKeyToExecGraphsMap k (some gv))
                k2 = some v := hv
            rw [mapFind_insert_ne _ _ _ _ hk] at hv'
            obtain ⟨g2, hvg2, hg2⟩ := hcons v hv'
            refine ⟨g2, hvg2, ?_⟩
            by_cases hgg : g2 = gv
            · rw [hgg]
              exact List.mem_cons_self _ _
            · exact List.mem_cons_of_mem _
                (List.mem_filter.mpr ⟨hg2, by simpa using hgg⟩)
          · rw [get_eq_stale hm hg]
            intro v hv
            have hv' : mapFind (mapErase c.gpuKeyToExecGraphsMap k) k2 =
                some v := hv
            rw [mapFind_erase_ne _ _ _ hk] at hv'
            exact hcons v hv'
  · intro hcap
    by_cases hcond : ((g :: c.gpuExecGraphs).length : Int) >
      evictionThreshold c.cacheSize
    · have hne : c.gpuExecGraphs ≠ [] := by
        intro hnil
        rw [hnil] at hcond
        unfold evictionThreshold at hcond
        rw [if_neg (by omega : ¬ c.cacheSize < 0)] at hcond
        simp at hcond
        omega
      have hdl : (g :: c.gpuExecGraphs).dropLast =
          g :: c.gpuExecGraphs.dropLast := List.dropLast_cons_of_ne_nil hne
      rw [update_eq_evict hcond]
      intro v hv
      have hv' : mapFind (mapInsert c.gpuKeyToExecGraphsMap k
          ((g :: c.gpuExecGraphs).dropLast.head?)) k = some v := hv
      rw [mapFind_insert_self, hdl, List.head?_cons] at hv'
      have hveq : v = some g := (Option.some.inj hv').symm
      subst hveq
      refine ⟨g, rfl, ?_⟩
      show g ∈ (g :: c.gpuExecGraphs).dropLast
      rw [hdl]
      exact List.mem_cons_self _ _
    · rw [update_eq_noevict hcond]
      intro v hv
      have hv' : mapFind (mapInsert c.gpuKeyToExecGraphsMap k (some g)) k =
          some v := hv
      rw [mapFind_insert_self] at hv'
      have hveq : v = some g := (Option.some.inj hv').symm
      subst hveq
      exact ⟨g, rfl, List.mem_cons_self _ _⟩
  · intro hcons hk2
    by_cases hcond : ((g :: c.gpuExecGraphs).length : Int) >
      evictionThreshold c.cacheSize
    · cases hm : mapFind c.gpuKeyToExecGraphsMap k2 with
      | none =>
        left
        rw [update_eq_evict hcond]
        intro v hv
        have hv' : mapFind (mapInsert c.gpuKeyToExecGraphsMap k
            ((g :: c.gpuExecGraphs).dropLast.head?)) k2 = some v := hv
        rw [mapFind_insert_ne _ _ _ _ hk2, hm] at hv'
        cases hv'
      | some itv =>
        obtain ⟨b, hvb, hbmem⟩ := hcons itv hm
        subst hvb
        have hne : c.gpuExecGraphs ≠ [] := List.ne_nil_of_mem hbmem
        have hdl : (g :: c.gpuExecGraphs).dropLast =
            g :: c.gpuExecGraphs.dropLast := List.dropLast_cons_of_ne_nil hne
        by_cases hbd : b ∈ (g :: c.gpuExecGraphs).dropLast
        · left
          rw [update_eq_evict hcond]
          intro v hv
          have hv' : mapFind (mapInsert c.gpuKeyToExecGraphsMap k
              ((g :: c.gpuExecGraphs).dropLast.head?)) k2 = some v := hv
          rw [mapFind_insert_ne _ _ _ _ hk2, hm] at hv'
          obtain rfl := Option.some.inj hv'
          exact ⟨b, rfl, hbd⟩
        · right
          refine ⟨b, rfl, ?_⟩
          have hbl : b = c.gpuExecGraphs.getLast hne := by
            have hbd' : b ∉ c.gpuExecGraphs.dropLast := fun h' =>
              hbd (hdl ▸ List.mem_cons_of_mem g h')
            have happ := List.dropLast_append_getLast hne
            rw [← happ] at hbmem
            rcases List.mem_append.mp hbmem with h' | h'
            · exact absurd h' hbd'
            · exact List.mem_singleton.mp h'
          rw [update_eq_evict hcond]
          show ((g :: c.gpuExecGraphs).getLast
              (List.cons_ne_nil g c.gpuExecGraphs) :: c.destroyed).head? =
            some b
          rw [List.head?_cons, List.getLast_cons hne, ← hbl]
    · left
      rw [update_eq_noevict hcond]
      intro v hv
      have hv' : mapFind (mapInsert c.gpuKeyToExecGraphsMap k (some g)) k2 =
          some v := hv
      rw [mapFind_insert_ne _ _ _ _ hk2] at hv'
      obtain ⟨b, hvb, hbmem⟩ := hcons v hv'
      exact ⟨b, hvb, List.mem_cons_of_mem g hbmem⟩

/-- Witness for C7: capacity-1 cache holding graph 5 under key 100;
looking up key 200 and inserting graph 7 under key 200 exercise all four
conjuncts at concrete state. -/
theorem C7_index_list_consistency_witness :
    Consistent (get_exec_graph ⟨1, [5], [(100, some 5)], []⟩ 200).1 200 ∧
    Consistent (get_exec_graph ⟨1, [5], [(100, some 5)], []⟩ 200).1 100 ∧
    Consistent (update_cache ⟨1, [5], [(100, some 5)], []⟩ 200 7) 200 ∧
    (Consistent (update_cache ⟨1, [5], [(100, some 5)], []⟩ 200 7) 100 ∨
      ∃ b, mapFind
          (⟨1, [5], [(100, some 5)], []⟩ :
            MutexedGraphExecCache).gpuKeyToExecGraphsMap 100 =
          some (some b) ∧
        (update_cache ⟨1, [5], [(100, some 5)], []⟩ 200 7).destroyed.head? =
          some b) :=
  ⟨(C7_index_list_consistency ⟨1, [5], [(100, some 5)], []⟩ 200 100 7).1,
   (C7_index_list_consistency ⟨1, [5], [(100, some 5)], []⟩ 200 100 7).2.1
     (by decide),
   (C7_index_list_consistency ⟨1, [5], [(100, some 5)], []⟩ 200 100 7).2.2.1
     (by decide),
   (C7_index_list_consistency ⟨1, [5], [(100, some 5)], []⟩ 200 100 7).2.2.2
     (by decide) (by decide)⟩

end MutexedGraphExecCache

end GpuExecutable

namespace Redzone

end Redzone

namespace XlaGpu

/-- C8 (spec-modelled): a Run whose device capability differs from the
compiled-for capability fails with the capability-mismatch error before
any thunk executes and with the buffer table untouched. -/
theorem C8_capability_mismatch (compiled device : GpuVersion)
    (thunks : List (List Nat → Option (List Nat))) (buffers : List Nat)
    (h : device ≠ compiled) :
    ExecuteAsyncOnStream compiled device thunks buffers =
      (some ExecError.capabilityMismatch, buffers, []) := by
  unfold ExecuteAsyncOnStream
  rw [if_pos (Ne.symm h)]

/-- Witness for C8: compute capability 8.0 offered to a program compiled
for 7.0 — immediate mismatch error, buffers unchanged, no thunk run. -/
theorem C8_capability_mismatch_witness :
    ExecuteAsyncOnStream ⟨7, 0⟩ ⟨8, 0⟩ [fun b => some b] [1, 2] =
      (some ExecError.capabilityMismatch, [1, 2], []) :=
  C8_capability_mismatch ⟨7, 0⟩ ⟨8, 0⟩ [fun b => some b] [1, 2] (by decide)

end XlaGpu
